import Mathlib

set_option maxRecDepth 8000

/-!
Shallow embedding of the quantization routines of the repository
(`presentation.ipynb`): uniform symmetric scalar quantization,
vector quantization (VQ), product quantization (PQ) and the
lookup-table dot-product engine.

Matrices are `List (List ℚ)` (row major); float values are modelled by
exact rationals.  `np.round` rounds half to even, `astype(np.int8)`
reduces the integer modulo 2^8 into [-128, 127], `np.clip` is
`min hi (max lo ·)`.  Division in `ℚ` returns 0 on a zero denominator;
the degenerate zero-scale path of `quantize_symmetric` is analysed
explicitly in the theorems about all-zero inputs.
-/

/-- `np.round`: round half to even, on exact rationals. -/
def roundHalfEven (q : ℚ) : ℤ :=
  if q - ⌊q⌋ < 1/2 then ⌊q⌋
  else if 1/2 < q - ⌊q⌋ then ⌊q⌋ + 1
  else if 2 ∣ ⌊q⌋ then ⌊q⌋ else ⌊q⌋ + 1

/-- `astype(np.int8)` on an integer value: reduction modulo 2^8 into [-128, 127]. -/
def int8cast (z : ℤ) : ℤ := (z + 128) % 256 - 128

/-- `np.clip(z, lo, hi) = np.minimum(hi, np.maximum(z, lo))`. -/
def clip (z lo hi : ℤ) : ℤ := min hi (max lo z)

/-- `np.max(np.abs(x))` over all entries of a matrix. -/
def maxAbs (x : List (List ℚ)) : ℚ := ((x.flatten).map (fun v => |v|)).foldr max 0

/-- `qmax = 2**(num_bits - 1) - 1` (natural subtraction in the exponent). -/
def qmaxOf (numBits : ℕ) : ℤ := 2 ^ (numBits - 1) - 1

/-- The 3×4 sample matrix of the notebook (`create_sample_matrix`),
with the decimal literals taken exactly. -/
def create_sample_matrix : List (List ℚ) :=
  [[0.1, -0.5, 0, 1], [2.5, -1.2, 0.7, -0.3], [0.9, 1.5, -2, 0.2]]

/-- `quantize_symmetric(x, num_bits)`:
`max_val = np.max(np.abs(x))`; `qmax = 2**(num_bits-1)-1`;
`scale = max_val / qmax`; `q = np.round(x/scale).astype(np.int8)`;
`q = np.clip(q, -qmax, qmax)`; returns `(q, scale)`.
The source performs no validation and raises no error. -/
def quantize_symmetric (x : List (List ℚ)) (numBits : ℕ) :
    List (List ℤ) × ℚ :=
  let maxVal := maxAbs x
  let qmax := qmaxOf numBits
  let scale : ℚ := maxVal / (qmax : ℚ)
  let q := x.map (fun row => row.map (fun v => int8cast (roundHalfEven (v / scale))))
  let qc := q.map (fun row => row.map (fun z => clip z (-qmax) qmax))
  (qc, scale)

/-- `dequantize_symmetric(q, scale) = q.astype(np.float32) * scale`. -/
def dequantize_symmetric (q : List (List ℤ)) (scale : ℚ) : List (List ℚ) :=
  q.map (fun row => row.map (fun z : ℤ => (z : ℚ) * scale))

section RoundLemmas

theorem roundHalfEven_sub_le (q : ℚ) : |q - roundHalfEven q| ≤ 1/2 := by
  have hf0 : (0:ℚ) ≤ q - ⌊q⌋ := by
    have := Int.floor_le q
    linarith
  have hf1 : q - ⌊q⌋ < 1 := by
    have := Int.lt_floor_add_one q
    linarith
  unfold roundHalfEven
  split_ifs with h1 h2 h3 <;>
    simp only [abs_le] <;>
    push_cast <;>
    constructor <;>
    linarith

theorem abs_roundHalfEven_le (q : ℚ) (n : ℤ) (h : |q| ≤ (n : ℚ)) :
    |roundHalfEven q| ≤ n := by
  have hd := roundHalfEven_sub_le q
  rw [abs_le] at hd h ⊢
  have h1 : ((roundHalfEven q : ℚ)) ≤ (n : ℚ) + 1/2 := by linarith
  have h2 : (-(n : ℚ)) - 1/2 ≤ ((roundHalfEven q : ℚ)) := by linarith
  constructor
  · have hc : ((-n - 1 : ℤ) : ℚ) < (roundHalfEven q : ℚ) := by push_cast; linarith
    have : (-n - 1 : ℤ) < roundHalfEven q := by exact_mod_cast hc
    omega
  · have hc : ((roundHalfEven q : ℚ)) < ((n + 1 : ℤ) : ℚ) := by push_cast; linarith
    have : roundHalfEven q < (n + 1 : ℤ) := by exact_mod_cast hc
    omega

theorem int8cast_bounds (z : ℤ) : -128 ≤ int8cast z ∧ int8cast z ≤ 127 := by
  unfold int8cast
  have h1 : 0 ≤ (z + 128) % 256 := Int.emod_nonneg _ (by norm_num)
  have h2 : (z + 128) % 256 < 256 := Int.emod_lt_of_pos _ (by norm_num)
  omega

theorem int8cast_eq_self (z : ℤ) (h1 : -128 ≤ z) (h2 : z ≤ 127) :
    int8cast z = z := by
  unfold int8cast
  have : (z + 128) % 256 = z + 128 := Int.emod_eq_of_lt (by omega) (by omega)
  omega

theorem clip_mem (z lo hi : ℤ) (h : lo ≤ hi) :
    lo ≤ clip z lo hi ∧ clip z lo hi ≤ hi := by
  unfold clip
  constructor
  · exact le_min h (le_max_left _ _)
  · exact min_le_left _ _

theorem clip_eq_self (z lo hi : ℤ) (h1 : lo ≤ z) (h2 : z ≤ hi) :
    clip z lo hi = z := by
  unfold clip
  rw [max_eq_right h1, min_eq_right h2]

end RoundLemmas

section MaxAbsLemmas

theorem le_foldr_max (l : List ℚ) (a : ℚ) (v : ℚ) (hv : v ∈ l) :
    v ≤ l.foldr max a := by
  induction l with
  | nil => cases hv
  | cons h t ih =>
    rcases List.mem_cons.mp hv with rfl | hv
    · exact le_max_left _ _
    · exact le_trans (ih hv) (le_max_right _ _)

theorem init_le_foldr_max (l : List ℚ) (a : ℚ) : a ≤ l.foldr max a := by
  induction l with
  | nil => exact le_refl a
  | cons h t ih => exact le_trans ih (le_max_right _ _)

theorem maxAbs_nonneg (x : List (List ℚ)) : 0 ≤ maxAbs x :=
  init_le_foldr_max _ 0

theorem abs_le_maxAbs (x : List (List ℚ)) (v : ℚ) (hv : v ∈ x.flatten) :
    |v| ≤ maxAbs x :=
  le_foldr_max _ 0 _ (List.mem_map.mpr ⟨v, hv, rfl⟩)

end MaxAbsLemmas

section EntryLemmas

theorem entry_map {α β : Type} (f : α → β) (x : List (List α)) (i j : ℕ)
    (da : α) (db : β) (hi : i < x.length) (hj : j < (x.getD i []).length) :
    ((x.map (fun r => r.map f)).getD i []).getD j db =
      f ((x.getD i []).getD j da) := by
  have hi' : i < (x.map (fun r => r.map f)).length := by
    simpa using hi
  rw [List.getD_eq_getElem _ _ hi', List.getElem_map]
  rw [List.getD_eq_getElem _ _ hi] at hj ⊢
  have hj' : j < (x[i].map f).length := by simpa using hj
  rw [List.getD_eq_getElem _ _ hj', List.getElem_map,
    List.getD_eq_getElem _ _ hj]

theorem quantize_scale (x : List (List ℚ)) (nb : ℕ) :
    (quantize_symmetric x nb).2 = maxAbs x / (qmaxOf nb : ℚ) := rfl

theorem quantize_codes_eq (x : List (List ℚ)) (nb : ℕ) :
    (quantize_symmetric x nb).1 =
      x.map (fun r => r.map (fun v =>
        clip (int8cast (roundHalfEven (v / (maxAbs x / (qmaxOf nb : ℚ)))))
          (-qmaxOf nb) (qmaxOf nb))) := by
  unfold quantize_symmetric
  simp only [List.map_map, Function.comp_def]

theorem quantize_codes_entry (x : List (List ℚ)) (nb : ℕ) (i j : ℕ)
    (hi : i < x.length) (hj : j < (x.getD i []).length) :
    ((quantize_symmetric x nb).1.getD i []).getD j 0 =
      clip (int8cast (roundHalfEven
        ((x.getD i []).getD j 0 / (maxAbs x / (qmaxOf nb : ℚ)))))
        (-qmaxOf nb) (qmaxOf nb) := by
  rw [quantize_codes_eq]
  exact entry_map _ x i j 0 0 hi hj

theorem matrix_entry_mem_flatten (x : List (List ℚ)) (i j : ℕ)
    (hi : i < x.length) (hj : j < (x.getD i []).length) :
    (x.getD i []).getD j 0 ∈ x.flatten := by
  rw [List.getD_eq_getElem _ _ hi] at hj ⊢
  rw [List.getD_eq_getElem _ _ hj]
  exact List.mem_flatten.mpr ⟨x[i], List.getElem_mem hi, List.getElem_mem hj⟩

end EntryLemmas

section ScalarQuantLemmas

theorem row_map_getD {α β : Type} (f : α → β) (x : List (List α)) (i : ℕ)
    (hi : i < x.length) :
    (x.map (fun r => r.map f)).getD i [] = (x.getD i []).map f := by
  have hi' : i < (x.map (fun r => r.map f)).length := by simpa using hi
  rw [List.getD_eq_getElem _ _ hi', List.getElem_map, List.getD_eq_getElem _ _ hi]

theorem maxAbs_pos (x : List (List ℚ)) (hm : maxAbs x ≠ 0) : 0 < maxAbs x :=
  lt_of_le_of_ne (maxAbs_nonneg x) (Ne.symm hm)

theorem scale8_pos (x : List (List ℚ)) (hm : maxAbs x ≠ 0) :
    0 < maxAbs x / ((qmaxOf 8 : ℤ) : ℚ) := by
  have h := maxAbs_pos x hm
  have : ((qmaxOf 8 : ℤ) : ℚ) = 127 := by norm_num [qmaxOf]
  rw [this]
  positivity

theorem abs_div_scale8_le (x : List (List ℚ)) (hm : maxAbs x ≠ 0)
    (v : ℚ) (hv : v ∈ x.flatten) :
    |v / (maxAbs x / ((qmaxOf 8 : ℤ) : ℚ))| ≤ ((127 : ℤ) : ℚ) := by
  have hq : ((qmaxOf 8 : ℤ) : ℚ) = 127 := by norm_num [qmaxOf]
  rw [hq]
  have hma := maxAbs_pos x hm
  have hs : 0 < maxAbs x / (127 : ℚ) := by positivity
  have hvle := abs_le_maxAbs x v hv
  rw [abs_div, abs_of_pos hs, div_le_iff₀ hs]
  calc |v| ≤ maxAbs x := hvle
    _ = 127 * (maxAbs x / 127) := by ring
    _ ≤ ((127:ℤ):ℚ) * (maxAbs x / 127) := by norm_num

theorem round_div_scale8_le (x : List (List ℚ)) (hm : maxAbs x ≠ 0)
    (v : ℚ) (hv : v ∈ x.flatten) :
    |roundHalfEven (v / (maxAbs x / ((qmaxOf 8 : ℤ) : ℚ)))| ≤ 127 :=
  abs_roundHalfEven_le _ 127 (abs_div_scale8_le x hm v hv)

end ScalarQuantLemmas

theorem maxAbs_sample : maxAbs create_sample_matrix = 5/2 := by
  norm_num [maxAbs, create_sample_matrix, max_def, abs]

theorem maxAbs_sample_ne_zero : maxAbs create_sample_matrix ≠ 0 := by
  rw [maxAbs_sample]; norm_num

theorem round8_abs_le (x : List (List ℚ)) (i j : ℕ) (hm : maxAbs x ≠ 0)
    (hi : i < x.length) (hj : j < (x.getD i []).length) :
    |roundHalfEven ((x.getD i []).getD j 0 / (quantize_symmetric x 8).2)| ≤ 127 := by
  rw [quantize_scale]
  exact round_div_scale8_le x hm _ (matrix_entry_mem_flatten x i j hi hj)

theorem cast8_eq_round (x : List (List ℚ)) (i j : ℕ) (hm : maxAbs x ≠ 0)
    (hi : i < x.length) (hj : j < (x.getD i []).length) :
    int8cast (roundHalfEven ((x.getD i []).getD j 0 / (quantize_symmetric x 8).2)) =
      roundHalfEven ((x.getD i []).getD j 0 / (quantize_symmetric x 8).2) := by
  have hr := round8_abs_le x i j hm hi hj
  rw [abs_le] at hr
  exact int8cast_eq_self _ (by omega) (by omega)

theorem code8_eq_round (x : List (List ℚ)) (i j : ℕ) (hm : maxAbs x ≠ 0)
    (hi : i < x.length) (hj : j < (x.getD i []).length) :
    ((quantize_symmetric x 8).1.getD i []).getD j 0 =
      roundHalfEven ((x.getD i []).getD j 0 / (quantize_symmetric x 8).2) := by
  have hr := round8_abs_le x i j hm hi hj
  rw [abs_le] at hr
  have hq : qmaxOf 8 = 127 := by norm_num [qmaxOf]
  have hcast := cast8_eq_round x i j hm hi hj
  rw [quantize_scale] at hcast ⊢
  rw [quantize_codes_entry x 8 i j hi hj, hcast]
  rw [quantize_scale] at hr
  exact clip_eq_self _ _ _ (by omega) (by omega)

/-- C9: for a matrix with nonzero maximum absolute value and `num_bits = 8`,
the rounded value `round(x_ij / scale)` already lies within `[-qmax, qmax]`
(`qmax = 127`), so the int8 cast is the identity and the clip branch never
changes any code: the final code equals the bare rounded value. -/
theorem quantize_clip_noop_8bit (x : List (List ℚ)) (i j : ℕ)
    (hm : maxAbs x ≠ 0) (hi : i < x.length) (hj : j < (x.getD i []).length) :
    |roundHalfEven ((x.getD i []).getD j 0 / (quantize_symmetric x 8).2)| ≤ qmaxOf 8 ∧
    int8cast (roundHalfEven ((x.getD i []).getD j 0 / (quantize_symmetric x 8).2)) =
      roundHalfEven ((x.getD i []).getD j 0 / (quantize_symmetric x 8).2) ∧
    ((quantize_symmetric x 8).1.getD i []).getD j 0 =
      roundHalfEven ((x.getD i []).getD j 0 / (quantize_symmetric x 8).2) := by
  have hq : qmaxOf 8 = 127 := by norm_num [qmaxOf]
  exact ⟨by rw [hq]; exact round8_abs_le x i j hm hi hj,
    cast8_eq_round x i j hm hi hj, code8_eq_round x i j hm hi hj⟩

/-- Witness for `quantize_clip_noop_8bit` at the notebook's sample matrix,
entry (1, 0) (the value 2.5, which maps to code 127). -/
theorem quantize_clip_noop_8bit_witness :
    maxAbs create_sample_matrix ≠ 0 ∧
    ((quantize_symmetric create_sample_matrix 8).1.getD 1 []).getD 0 0 =
      roundHalfEven ((create_sample_matrix.getD 1 []).getD 0 0 /
        (quantize_symmetric create_sample_matrix 8).2) := by
  refine ⟨maxAbs_sample_ne_zero, ?_⟩
  exact (quantize_clip_noop_8bit create_sample_matrix 1 0 maxAbs_sample_ne_zero
    (by norm_num [create_sample_matrix]) (by norm_num [create_sample_matrix])).2.2

theorem quantize_codes_length (x : List (List ℚ)) (nb : ℕ) :
    (quantize_symmetric x nb).1.length = x.length := by
  rw [quantize_codes_eq]; simp

theorem quantize_codes_row_length (x : List (List ℚ)) (nb : ℕ) (i : ℕ)
    (hi : i < x.length) :
    ((quantize_symmetric x nb).1.getD i []).length = (x.getD i []).length := by
  rw [quantize_codes_eq, row_map_getD _ x i hi]; simp

/-- C2: for a matrix with nonzero maximum absolute value and `num_bits = 8`,
every element whose code was not changed by the clip satisfies the
quantization-step error bound
`|x_ij - dequantize_symmetric(quantize_symmetric(x))_ij| ≤ scale/2`,
with `scale = max|x| / (2^(8-1) - 1)`. -/
theorem quantize_roundtrip_error_bound (x : List (List ℚ)) (i j : ℕ)
    (hm : maxAbs x ≠ 0) (hi : i < x.length) (hj : j < (x.getD i []).length)
    (hcl : clip (int8cast (roundHalfEven
        ((x.getD i []).getD j 0 / (quantize_symmetric x 8).2)))
        (-qmaxOf 8) (qmaxOf 8) =
      int8cast (roundHalfEven
        ((x.getD i []).getD j 0 / (quantize_symmetric x 8).2))) :
    |(x.getD i []).getD j 0 -
        ((dequantize_symmetric (quantize_symmetric x 8).1
          (quantize_symmetric x 8).2).getD i []).getD j 0| ≤
      (quantize_symmetric x 8).2 / 2 := by
  have hs : 0 < (quantize_symmetric x 8).2 := by
    rw [quantize_scale]; exact scale8_pos x hm
  have hi' : i < (quantize_symmetric x 8).1.length := by
    rw [quantize_codes_length]; exact hi
  have hj' : j < ((quantize_symmetric x 8).1.getD i []).length := by
    rw [quantize_codes_row_length x 8 i hi]; exact hj
  have hde : ((dequantize_symmetric (quantize_symmetric x 8).1
      (quantize_symmetric x 8).2).getD i []).getD j 0 =
      ((((quantize_symmetric x 8).1.getD i []).getD j 0 : ℤ) : ℚ) *
        (quantize_symmetric x 8).2 := by
    unfold dequantize_symmetric
    exact entry_map _ ((quantize_symmetric x 8).1) i j 0 0 hi' hj'
  rw [hde, code8_eq_round x i j hm hi hj]
  have hround := roundHalfEven_sub_le
    ((x.getD i []).getD j 0 / (quantize_symmetric x 8).2)
  have hsne : (quantize_symmetric x 8).2 ≠ 0 := ne_of_gt hs
  have hrw : (x.getD i []).getD j 0 -
      ((roundHalfEven ((x.getD i []).getD j 0 / (quantize_symmetric x 8).2) : ℤ) : ℚ) *
        (quantize_symmetric x 8).2 =
      ((x.getD i []).getD j 0 / (quantize_symmetric x 8).2 -
        ((roundHalfEven ((x.getD i []).getD j 0 / (quantize_symmetric x 8).2) : ℤ) : ℚ)) *
        (quantize_symmetric x 8).2 := by
    field_simp
    ring
  rw [hrw, abs_mul, abs_of_pos hs]
  calc |(x.getD i []).getD j 0 / (quantize_symmetric x 8).2 -
        ((roundHalfEven ((x.getD i []).getD j 0 / (quantize_symmetric x 8).2) : ℤ) : ℚ)| *
        (quantize_symmetric x 8).2
      ≤ (1/2) * (quantize_symmetric x 8).2 :=
        mul_le_mul_of_nonneg_right hround (le_of_lt hs)
    _ = (quantize_symmetric x 8).2 / 2 := by ring

/-- Witness for `quantize_roundtrip_error_bound` at the sample matrix, entry (0, 0). -/
theorem quantize_roundtrip_error_bound_witness :
    maxAbs create_sample_matrix ≠ 0 ∧
    |(create_sample_matrix.getD 0 []).getD 0 0 -
        ((dequantize_symmetric (quantize_symmetric create_sample_matrix 8).1
          (quantize_symmetric create_sample_matrix 8).2).getD 0 []).getD 0 0| ≤
      (quantize_symmetric create_sample_matrix 8).2 / 2 := by
  refine ⟨maxAbs_sample_ne_zero, ?_⟩
  refine quantize_roundtrip_error_bound create_sample_matrix 0 0
    maxAbs_sample_ne_zero (by norm_num [create_sample_matrix])
    (by norm_num [create_sample_matrix]) ?_
  simp only [quantize_scale, maxAbs_sample]
  simp only [create_sample_matrix, List.getD_cons_zero, List.getD_cons_succ]
  simp only [roundHalfEven, int8cast, clip]
  norm_num [max_def, min_def, Int.fract, qmaxOf]

/-- C3: for every input matrix with nonzero maximum absolute value and every
bit width `num_bits ≥ 1`, each element of the codes matrix returned by
`quantize_symmetric` lies in `[-qmax, qmax]` with `qmax = 2^(num_bits-1) - 1`. -/
theorem quantize_codes_range (x : List (List ℚ)) (nb : ℕ) (hb : 1 ≤ nb)
    (hm : maxAbs x ≠ 0) :
    ∀ z ∈ (quantize_symmetric x nb).1.flatten,
      -qmaxOf nb ≤ z ∧ z ≤ qmaxOf nb := by
  intro z hz
  rw [quantize_codes_eq] at hz
  rcases List.mem_flatten.mp hz with ⟨row, hrow, hzrow⟩
  rcases List.mem_map.mp hrow with ⟨r, hr, rfl⟩
  rcases List.mem_map.mp hzrow with ⟨v, hv, rfl⟩
  have hq : (0:ℤ) ≤ qmaxOf nb := by
    unfold qmaxOf
    have := pow_pos (show (0:ℤ) < 2 by norm_num) (nb - 1)
    omega
  exact clip_mem _ _ _ (by omega)

/-- Witness for `quantize_codes_range` at the sample matrix with 8 bits. -/
theorem quantize_codes_range_witness :
    1 ≤ 8 ∧ maxAbs create_sample_matrix ≠ 0 ∧
    ∀ z ∈ (quantize_symmetric create_sample_matrix 8).1.flatten,
      -qmaxOf 8 ≤ z ∧ z ≤ qmaxOf 8 :=
  ⟨by norm_num, maxAbs_sample_ne_zero,
    quantize_codes_range create_sample_matrix 8 (by norm_num) maxAbs_sample_ne_zero⟩

/-- C8: for every input matrix and every bit width `num_bits ≥ 1`, each code
returned by `quantize_symmetric` lies in the signed 8-bit range `[-128, 127]`:
the rounded value is reduced modulo 2^8 by the int8 cast before the clip is
applied, so even `num_bits > 8` (where `qmax > 127`) cannot widen the range. -/
theorem quantize_codes_int8_range (x : List (List ℚ)) (nb : ℕ) (hb : 1 ≤ nb) :
    ∀ z ∈ (quantize_symmetric x nb).1.flatten, -128 ≤ z ∧ z ≤ 127 := by
  intro z hz
  rw [quantize_codes_eq] at hz
  rcases List.mem_flatten.mp hz with ⟨row, hrow, hzrow⟩
  rcases List.mem_map.mp hrow with ⟨r, hr, rfl⟩
  rcases List.mem_map.mp hzrow with ⟨v, hv, rfl⟩
  have hq : (0:ℤ) ≤ qmaxOf nb := by
    unfold qmaxOf
    have := pow_pos (show (0:ℤ) < 2 by norm_num) (nb - 1)
    omega
  have hcb := int8cast_bounds (roundHalfEven (v / (maxAbs x / (qmaxOf nb : ℚ))))
  simp only [clip, min_def, max_def]
  split_ifs <;> omega

/-- Witness for `quantize_codes_int8_range` with 16 bits (`qmax = 32767 > 127`). -/
theorem quantize_codes_int8_range_witness :
    1 ≤ 16 ∧
    ∀ z ∈ (quantize_symmetric [[1000, 1]] 16).1.flatten, -128 ≤ z ∧ z ≤ 127 :=
  ⟨by norm_num, quantize_codes_int8_range [[1000, 1]] 16 (by norm_num)⟩

/-- C6: on the notebook's sample matrix with `num_bits = 8`,
`quantize_symmetric` returns `scale = 2.5/127 = 5/254 ≈ 0.019685` and the
codes matrix `[[5, -25, 0, 51], [127, -61, 36, -15], [46, 76, -102, 10]]`
(row 0 is `[5, -25, 0, 51]`). -/
theorem quantize_sample_matrix_values :
    quantize_symmetric create_sample_matrix 8 =
      ([[5, -25, 0, 51], [127, -61, 36, -15], [46, 76, -102, 10]], 5/254) := by
  simp only [quantize_symmetric, qmaxOf, maxAbs_sample]
  simp only [create_sample_matrix, List.map_cons, List.map_nil,
    Prod.mk.injEq, List.cons.injEq, and_true]
  refine ⟨⟨⟨?_, ?_, ?_, ?_⟩, ⟨?_, ?_, ?_, ?_⟩, ⟨?_, ?_, ?_, ?_⟩⟩, by norm_num⟩ <;>
    · simp only [roundHalfEven, int8cast, clip]
      norm_num [max_def, min_def, Int.fract]

/-- C4 counterexample: on an all-zero matrix `quantize_symmetric` raises
nothing and returns `scale = 0`; the zero scale produced by the degenerate
`max|x| = 0` is propagated into the returned pair (and the encode step
divides by that zero scale), contradicting the claim that the zero-range
condition is raised as an error or deterministically handled. -/
theorem quantize_zero_matrix_returns_cex :
    (quantize_symmetric [[0, 0], [0, 0]] 8).2 = 0 := by
  have hmax : maxAbs [[(0:ℚ), 0], [0, 0]] = 0 := by
    norm_num [maxAbs, max_def, abs]
  rw [quantize_scale, hmax]
  norm_num

/-- C4 (amended): on any zero-range input (`max|x| = 0`),
`quantize_symmetric` performs no error handling and no fallback: it
returns `scale = max|x| / qmax = 0`, and the encode step divides every
element by that zero scale. -/
theorem quantize_zero_range_scale_zero (x : List (List ℚ)) (nb : ℕ)
    (hm : maxAbs x = 0) : (quantize_symmetric x nb).2 = 0 := by
  rw [quantize_scale, hm]
  norm_num

/-- Witness for `quantize_zero_range_scale_zero` at a concrete all-zero matrix. -/
theorem quantize_zero_range_scale_zero_witness :
    maxAbs [[0, 0, 0]] = 0 ∧ (quantize_symmetric [[0, 0, 0]] 8).2 = 0 := by
  have hmax : maxAbs [[(0:ℚ), 0, 0]] = 0 := by
    norm_num [maxAbs, max_def, abs]
  exact ⟨hmax, quantize_zero_range_scale_zero [[0, 0, 0]] 8 hmax⟩

/-- C5 counterexample: called with `num_bits = 1 < 2`, `quantize_symmetric`
does not fail: it returns a code matrix (here `[[0]]`, since `qmax = 0`
forces every code to zero through the clip), so no `ConfigError` exists in
the code. -/
theorem quantize_numbits_one_returns_cex :
    (quantize_symmetric [[1]] 1).1 = [[0]] := by
  simp only [quantize_codes_eq, qmaxOf]
  norm_num [clip, min_def, max_def, int8cast, roundHalfEven]

/-- C5 (amended): `quantize_symmetric` performs no validation of
`num_bits`; for `num_bits = 1` it returns normally on every input, with
every code equal to 0 (`qmax = 0` makes the clip collapse all codes). -/
theorem quantize_numbits_one_codes_zero (x : List (List ℚ)) :
    ∀ z ∈ (quantize_symmetric x 1).1.flatten, z = 0 := by
  intro z hz
  rw [quantize_codes_eq] at hz
  rcases List.mem_flatten.mp hz with ⟨row, hrow, hzrow⟩
  rcases List.mem_map.mp hrow with ⟨r, hr, rfl⟩
  rcases List.mem_map.mp hzrow with ⟨v, hv, rfl⟩
  have hq : qmaxOf 1 = 0 := by norm_num [qmaxOf]
  rw [hq]
  simp [clip]

/-- Witness for `quantize_numbits_one_codes_zero` at a concrete matrix and a
concrete element of its code matrix. -/
theorem quantize_numbits_one_codes_zero_witness :
    ((quantize_symmetric [[3, -7], [2, 5]] 1).1.getD 0 []).getD 0 0 ∈
      (quantize_symmetric [[3, -7], [2, 5]] 1).1.flatten ∧
    ((quantize_symmetric [[3, -7], [2, 5]] 1).1.getD 0 []).getD 0 0 = 0 := by
  have hcodes : (quantize_symmetric [[3, -7], [2, 5]] 1).1 = [[0, 0], [0, 0]] := by
    simp only [quantize_codes_eq, qmaxOf]
    norm_num [clip, min_def, max_def, int8cast, roundHalfEven, maxAbs, abs, max_def]
    rfl
  have hmem : ((quantize_symmetric [[3, -7], [2, 5]] 1).1.getD 0 []).getD 0 0 ∈
      (quantize_symmetric [[3, -7], [2, 5]] 1).1.flatten := by
    rw [hcodes]
    simp
  exact ⟨hmem, quantize_numbits_one_codes_zero [[3, -7], [2, 5]] _ hmem⟩

/-- Squared L2 distance between two vectors (argmin-equivalent to L2
distance, which is monotone in it). -/
def sqDist (u v : List ℚ) : ℚ := (List.zipWith (fun a b => (a - b) ^ 2) u v).sum

/-- Helper for `assign`: scans `c :: rest` starting at index `i` and returns
the (index, squared distance) of the nearest centroid, preferring the
earlier index on ties. -/
def assignAux (s : List ℚ) (c : List ℚ) : List (List ℚ) → ℕ → ℕ × ℚ
  | [], i => (i, sqDist s c)
  | c2 :: rest, i =>
    let best := assignAux s c2 rest (i + 1)
    if sqDist s c ≤ best.2 then (i, sqDist s c) else best

/-- Modelled from the spec: `kmeans.predict` of the external clustering
library (not part of the repository) is specified as
`assign(sample, codebook) -> index`, returning the index of the nearest
centroid by L2 distance with ties broken by the lowest index. -/
def assign (s : List ℚ) (cb : List (List ℚ)) : ℕ :=
  match cb with
  | [] => 0
  | c :: rest => (assignAux s c rest 0).1

/-- VQ encode (`kmeans.predict(flat_data)` reshaped): every scalar element
is a 1-dimensional sample assigned to its nearest centroid of the flattened
codebook. -/
def vq_encode (x : List (List ℚ)) (codebook : List ℚ) : List (List ℕ) :=
  x.map (fun r => r.map (fun v => assign [v] (codebook.map (fun c => [c]))))

/-- VQ decode (`codebook[indices].reshape(data.shape)`): gather the centroid
value at each stored index. -/
def vq_decode (idx : List (List ℕ)) (codebook : List ℚ) : List (List ℚ) :=
  idx.map (fun r => r.map (fun i => codebook.getD i 0))

/-- Dot product of two vectors (`np.dot`). -/
def dot (u v : List ℚ) : ℚ := (List.zipWith (fun a b => a * b) u v).sum

/-- `[query[i*sub_dim : (i+1)*sub_dim] for i in range(M)]`. -/
def query_subs (v : List ℚ) (subDim M : ℕ) : List (List ℚ) :=
  (List.range M).map (fun i => (v.drop (i * subDim)).take subDim)

/-- `lookup_tables = [np.dot(query_subs[i], codebooks[i].T) for i in range(M)]`:
table `i` holds the dot product of query sub-vector `i` with every centroid
of codebook `i`. -/
def lookup_tables (qs : List (List ℚ)) (codebooks : List (List (List ℚ))) :
    List (List ℚ) :=
  List.zipWith (fun q cb => cb.map (fun c => dot q c)) qs codebooks

/-- `sum(lookup_tables[i][pq_codes[row, i]] for i in range(M))`. -/
def approx_dot (rowCodes : List ℕ) (tables : List (List ℚ)) : ℚ :=
  (List.zipWith (fun t c => t.getD c 0) tables rowCodes).sum

/-- One row of `np.hstack([codebooks[i][pq_codes[:, i]] for i in range(M)])`:
the PQ reconstruction of a row concatenates the indexed centroid of each
subspace. -/
def pq_decode_row (rowCodes : List ℕ) (codebooks : List (List (List ℚ))) :
    List ℚ :=
  (List.zipWith (fun cb c => cb.getD c []) codebooks rowCodes).flatten

section AssignLemmas

theorem assignAux_idx_bounds (s : List ℚ) (rest : List (List ℚ)) :
    ∀ (c : List ℚ) (i : ℕ),
      i ≤ (assignAux s c rest i).1 ∧ (assignAux s c rest i).1 ≤ i + rest.length := by
  induction rest with
  | nil => intro c i; simp [assignAux]
  | cons c2 r ih =>
    intro c i
    simp only [assignAux, List.length_cons]
    split_ifs with h
    · exact ⟨le_refl i, by omega⟩
    · have := ih c2 (i + 1)
      omega

theorem assignAux_val (s : List ℚ) (rest : List (List ℚ)) :
    ∀ (c : List ℚ) (i : ℕ),
      (assignAux s c rest i).2 =
        sqDist s ((c :: rest).getD ((assignAux s c rest i).1 - i) []) := by
  induction rest with
  | nil => intro c i; simp [assignAux]
  | cons c2 r ih =>
    intro c i
    simp only [assignAux]
    split_ifs with h
    · simp
    · have hb := (assignAux_idx_bounds s r c2 (i + 1)).1
      have hv := ih c2 (i + 1)
      have hδ : (assignAux s c2 r (i + 1)).1 - i =
          ((assignAux s c2 r (i + 1)).1 - (i + 1)) + 1 := by omega
      rw [hδ, List.getD_cons_succ]
      exact hv

theorem assignAux_le (s : List ℚ) (rest : List (List ℚ)) :
    ∀ (c : List ℚ) (i m : ℕ), m ≤ rest.length →
      (assignAux s c rest i).2 ≤ sqDist s ((c :: rest).getD m []) := by
  induction rest with
  | nil =>
    intro c i m hm
    have : m = 0 := by simpa using hm
    subst this
    simp [assignAux]
  | cons c2 r ih =>
    intro c i m hm
    simp only [assignAux]
    split_ifs with h
    · cases m with
      | zero => simp
      | succ m' =>
        rw [List.getD_cons_succ]
        exact le_trans h (ih c2 (i + 1) m' (by simpa using hm))
    · cases m with
      | zero =>
        rw [List.getD_cons_zero]
        exact le_of_lt (not_le.mp h)
      | succ m' =>
        rw [List.getD_cons_succ]
        exact ih c2 (i + 1) m' (by simpa using hm)

theorem assignAux_lt_earlier (s : List ℚ) (rest : List (List ℚ)) :
    ∀ (c : List ℚ) (i m : ℕ), m < (assignAux s c rest i).1 - i →
      (assignAux s c rest i).2 < sqDist s ((c :: rest).getD m []) := by
  induction rest with
  | nil => intro c i m hm; simp [assignAux] at hm
  | cons c2 r ih =>
    intro c i m hm
    simp only [assignAux] at hm ⊢
    split_ifs at hm ⊢ with h
    · simp at hm
    · have hb := (assignAux_idx_bounds s r c2 (i + 1)).1
      cases m with
      | zero =>
        rw [List.getD_cons_zero]
        exact not_le.mp h
      | succ m' =>
        rw [List.getD_cons_succ]
        exact ih c2 (i + 1) m' (by omega)

theorem assign_lt_length (s : List ℚ) (cb : List (List ℚ)) (h : cb ≠ []) :
    assign s cb < cb.length := by
  match cb with
  | c :: rest =>
    have := (assignAux_idx_bounds s rest c 0).2
    simp only [assign, List.length_cons]
    omega

end AssignLemmas

/-- C7: the index returned by the (spec-modelled) nearest-centroid
assignment is in range and optimal: no centroid of the codebook is strictly
closer to the sample under (squared) L2 distance, and every centroid of
strictly smaller index is strictly farther, i.e. ties are broken by the
lowest index.  VQ assigns each scalar and PQ assigns each sub-vector per
subspace through this function. -/
theorem assign_nearest_optimal (s : List ℚ) (cb : List (List ℚ))
    (hne : cb ≠ []) :
    assign s cb < cb.length ∧
    (∀ k, k < cb.length →
      sqDist s (cb.getD (assign s cb) []) ≤ sqDist s (cb.getD k [])) ∧
    (∀ k, k < assign s cb →
      sqDist s (cb.getD (assign s cb) []) < sqDist s (cb.getD k [])) := by
  match cb with
  | c :: rest =>
    have hval := assignAux_val s rest c 0
    rw [Nat.sub_zero] at hval
    have hassign : assign s (c :: rest) = (assignAux s c rest 0).1 := rfl
    refine ⟨assign_lt_length s (c :: rest) hne, ?_, ?_⟩
    · intro k hk
      rw [hassign, ← hval]
      exact assignAux_le s rest c 0 k (by simpa using Nat.lt_succ_iff.mp hk)
    · intro k hk
      rw [hassign, ← hval]
      exact assignAux_lt_earlier s rest c 0 k (by simpa using hk)

/-- Witness for `assign_nearest_optimal`: the sample `[0]` against the
codebook `[[1], [-1]]` (both centroids at distance 1; the tie is broken
toward index 0). -/
theorem assign_nearest_optimal_witness :
    ([[1], [-1]] : List (List ℚ)) ≠ [] ∧
    (∀ k, k < ([[1], [-1]] : List (List ℚ)).length →
      sqDist [0] (([[1], [-1]] : List (List ℚ)).getD (assign [0] [[1], [-1]]) []) ≤
        sqDist [0] (([[1], [-1]] : List (List ℚ)).getD k [])) ∧
    (∀ k, k < assign [0] [[1], [-1]] →
      sqDist [0] (([[1], [-1]] : List (List ℚ)).getD (assign [0] [[1], [-1]]) []) <
        sqDist [0] (([[1], [-1]] : List (List ℚ)).getD k [])) := by
  have h := assign_nearest_optimal [0] [[1], [-1]] (by simp)
  exact ⟨by simp, h.2.1, h.2.2⟩

/-- C10: VQ encode followed by decode yields a matrix with exactly the
input's shape (same row count and same length for every row), and every
element of the reconstruction is one of the codebook's centroid values. -/
theorem vq_roundtrip_shape_mem (x : List (List ℚ)) (cb : List ℚ)
    (hcb : cb ≠ []) :
    (vq_decode (vq_encode x cb) cb).length = x.length ∧
    (vq_decode (vq_encode x cb) cb).map List.length = x.map List.length ∧
    ∀ row ∈ vq_decode (vq_encode x cb) cb, ∀ v ∈ row, v ∈ cb := by
  refine ⟨by simp [vq_decode, vq_encode], ?_, ?_⟩
  · simp only [vq_decode, vq_encode, List.map_map]
    apply List.map_congr_left
    intro r _
    simp
  · intro row hrow v hv
    simp only [vq_decode, vq_encode, List.map_map] at hrow
    rcases List.mem_map.mp hrow with ⟨r, hr, rfl⟩
    simp only [Function.comp_def, List.map_map] at hv
    rcases List.mem_map.mp hv with ⟨u, hu, rfl⟩
    show cb.getD (assign [u] (cb.map (fun c => [c]))) 0 ∈ cb
    have hne : (cb.map (fun c => [c])) ≠ [] := by
      simpa using hcb
    have hlt : assign [u] (cb.map (fun c => [c])) < cb.length := by
      have := assign_lt_length [u] (cb.map (fun c => [c])) hne
      simpa using this
    rw [List.getD_eq_getElem _ _ hlt]
    exact List.getElem_mem hlt

/-- Witness for `vq_roundtrip_shape_mem` at the concrete matrix `[[1, 2]]`
and codebook `[0, 3]`. -/
theorem vq_roundtrip_shape_mem_witness :
    ([0, 3] : List ℚ) ≠ [] ∧
    (vq_decode (vq_encode [[1, 2]] [0, 3]) [0, 3]).length = 1 ∧
    ∀ row ∈ vq_decode (vq_encode [[1, 2]] [0, 3]) [0, 3],
      ∀ v ∈ row, v ∈ ([0, 3] : List ℚ) := by
  have h := vq_roundtrip_shape_mem [[1, 2]] [0, 3] (by simp)
  exact ⟨by simp, by rw [h.1]; rfl, h.2.2⟩

section LookupLemmas

theorem getD_map_def {α β : Type} (f : α → β) (l : List α) (n : ℕ)
    (hn : n < l.length) (da : α) (db : β) :
    (l.map f).getD n db = f (l.getD n da) := by
  rw [List.getD_eq_getElem _ _ (by simpa using hn), List.getElem_map,
    List.getD_eq_getElem _ _ hn]

theorem dot_append (u1 u2 v1 v2 : List ℚ) (h : u1.length = v1.length) :
    dot (u1 ++ u2) (v1 ++ v2) = dot u1 v1 + dot u2 v2 := by
  unfold dot
  rw [List.zipWith_append _ _ _ _ _ h, List.sum_append]

theorem approx_dot_general (cbs : List (List (List ℚ))) :
    ∀ (qs : List (List ℚ)) (cs : List ℕ),
      qs.length = cbs.length → cs.length = cbs.length →
      (∀ i, i < cbs.length → cs.getD i 0 < (cbs.getD i []).length) →
      (∀ i, i < cbs.length → ∀ c ∈ cbs.getD i [], c.length = (qs.getD i []).length) →
      approx_dot cs (lookup_tables qs cbs) =
        dot qs.flatten (pq_decode_row cs cbs) := by
  induction cbs with
  | nil =>
    intro qs cs h1 h2 _ _
    have hq : qs = [] := List.length_eq_zero.mp (by simpa using h1)
    have hc : cs = [] := List.length_eq_zero.mp (by simpa using h2)
    subst hq hc
    simp [approx_dot, lookup_tables, pq_decode_row, dot]
  | cons cb cbs ih =>
    intro qs cs h1 h2 h3 h4
    match qs, cs with
    | [], _ => simp at h1
    | _, [] => simp at h2
    | q :: qs, c :: cs =>
      have hc0 : c < cb.length := by simpa using h3 0 (by simp)
      have hlen0 : ∀ v ∈ cb, v.length = q.length := by simpa using h4 0 (by simp)
      have hcent : (cb.getD c []).length = q.length := by
        apply hlen0
        rw [List.getD_eq_getElem _ _ hc0]
        exact List.getElem_mem hc0
      simp only [lookup_tables, approx_dot, pq_decode_row, List.zipWith_cons_cons,
        List.sum_cons, List.flatten_cons]
      rw [dot_append _ _ _ _ hcent.symm]
      rw [getD_map_def _ cb c hc0 []]
      congr 1
      exact ih qs cs (by simpa using h1) (by simpa using h2)
        (fun i hi => by simpa using h3 (i + 1) (by simpa using Nat.succ_lt_succ hi))
        (fun i hi => by simpa using h4 (i + 1) (by simpa using Nat.succ_lt_succ hi))

theorem query_subs_length (v : List ℚ) (subDim M : ℕ) :
    (query_subs v subDim M).length = M := by
  simp [query_subs]

theorem query_subs_getD (v : List ℚ) (subDim M i : ℕ) (hi : i < M) :
    (query_subs v subDim M).getD i [] = (v.drop (i * subDim)).take subDim := by
  unfold query_subs
  rw [List.getD_eq_getElem _ _ (by simpa using hi), List.getElem_map,
    List.getElem_range]

theorem query_subs_getD_length (v : List ℚ) (subDim M i : ℕ) (hi : i < M)
    (hv : v.length = M * subDim) :
    ((query_subs v subDim M).getD i []).length = subDim := by
  rw [query_subs_getD v subDim M i hi, List.length_take, List.length_drop, hv]
  have hle : (i + 1) * subDim ≤ M * subDim := Nat.mul_le_mul_right _ hi
  rw [Nat.succ_mul] at hle
  omega

theorem flatten_query_subs (v : List ℚ) (subDim M : ℕ)
    (hv : v.length = M * subDim) :
    (query_subs v subDim M).flatten = v := by
  induction M generalizing v with
  | zero =>
    have : v = [] := List.length_eq_zero.mp (by simpa using hv)
    subst this
    simp [query_subs]
  | succ M ih =>
    rw [query_subs, List.range_succ_eq_map]
    simp only [List.map_cons, List.map_map, List.flatten_cons, Nat.zero_mul,
      List.drop_zero]
    have htail : (List.range M).map
        ((fun i => (v.drop (i * subDim)).take subDim) ∘ Nat.succ) =
        query_subs (v.drop subDim) subDim M := by
      unfold query_subs
      apply List.map_congr_left
      intro i _
      simp only [Function.comp_apply]
      rw [List.drop_drop]
      congr 2
      rw [Nat.succ_mul, Nat.mul_comm]
      omega
    rw [htail, ih (v.drop subDim) (by rw [List.length_drop, hv, Nat.succ_mul]; omega)]
    exact List.take_append_drop subDim v

end LookupLemmas

/-- C1: for every query vector of dimension `d = M * sub_dim`, every sequence
of `M` PQ codebooks (all centroids of dimension `sub_dim`) and every row code
vector with one in-range index per subspace, the lookup-based dot product
`approx_dot` — the sum over subspaces of `lookup_tables[i][row_codes[i]]` —
equals exactly (the embedding is exact rational arithmetic, so "up to
floating-point summation order" is an equality) the direct dot product of the
query with the PQ-reconstructed row decoded from the codes. -/
theorem approx_dot_eq_dot_decode (query : List ℚ)
    (codebooks : List (List (List ℚ))) (rowCodes : List ℕ) (subDim M : ℕ)
    (hq : query.length = M * subDim)
    (hcb : codebooks.length = M)
    (hcs : rowCodes.length = M)
    (hidx : ∀ i, i < M → rowCodes.getD i 0 < (codebooks.getD i []).length)
    (hcent : ∀ i, i < M → ∀ c ∈ codebooks.getD i [], c.length = subDim) :
    approx_dot rowCodes (lookup_tables (query_subs query subDim M) codebooks) =
      dot query (pq_decode_row rowCodes codebooks) := by
  have h := approx_dot_general codebooks (query_subs query subDim M) rowCodes
    (by rw [query_subs_length, hcb])
    (by rw [hcs, hcb])
    (fun i hi => hidx i (by rwa [hcb] at hi))
    (fun i hi c hc => by
      rw [query_subs_getD_length query subDim M i (by rwa [hcb] at hi) hq]
      exact hcent i (by rwa [hcb] at hi) c hc)
  rwa [flatten_query_subs query subDim M hq] at h

/-- Witness for `approx_dot_eq_dot_decode` at the notebook's PQ example:
query `[0.2, -0.1, 0.5, 1.0]`, the two trained codebooks, and the codes
`[2, 2]` of row 0. -/
theorem approx_dot_eq_dot_decode_witness :
    ([0.2, -0.1, 0.5, 1] : List ℚ).length = 2 * 2 ∧
    approx_dot [2, 2]
        (lookup_tables (query_subs [0.2, -0.1, 0.5, 1] 2 2)
          [[[2.5, -1.2], [0.9, 1.5], [0.1, -0.5]], [[0.7, -0.3], [-2, 0.2], [0, 1]]]) =
      dot [0.2, -0.1, 0.5, 1]
        (pq_decode_row [2, 2]
          [[[2.5, -1.2], [0.9, 1.5], [0.1, -0.5]], [[0.7, -0.3], [-2, 0.2], [0, 1]]]) := by
  refine ⟨by norm_num, ?_⟩
  refine approx_dot_eq_dot_decode [0.2, -0.1, 0.5, 1]
    [[[2.5, -1.2], [0.9, 1.5], [0.1, -0.5]], [[0.7, -0.3], [-2, 0.2], [0, 1]]]
    [2, 2] 2 2 (by norm_num) (by norm_num) (by norm_num) ?_ ?_
  · intro i hi
    interval_cases i <;> simp
  · intro i hi c hc
    interval_cases i <;> simp_all <;> rcases hc with rfl | rfl | rfl <;> simp
